/-
A verification development for `scrape_patches.py`, the Liquipedia
StarCraft 2 patch-timeline scraper.

The core pipeline (text normalization, version recognition, date
interpretation, row/table extraction, CSV serialization) is embedded
shallowly: Python strings are `List Char`, `Optional[T]` is `Option T`,
`datetime.date` is a record of three naturals, and the external
`dateutil` parser — which is not part of the repository — is a parameter
of the functions that call it.  Each definition is translated from the
corresponding Python function; comments quote the line being modelled.
-/
import Mathlib

set_option linter.unusedVariables false

namespace Scrape

/-! ### Character classes

Python's `re` module is used with `str` patterns, so `\s` and `\d` match
Unicode whitespace/digits; we model the ASCII subsets, which cover every
character the scraped corpus and the spec discuss.  `\s` on ASCII is
`[ \t\n\r\f\v]`, which is also the class stripped by `str.strip()`. -/

def isSpaceCh (c : Char) : Bool :=
  c = ' ' || c = '\t' || c = '\n' || c = '\r' || c = '\x0b' || c = '\x0c'

def isDigitCh (c : Char) : Bool :=
  '0' ≤ c && c ≤ '9'

/-! ### Text Normalizer — `_clean_text` (scrape_patches.py lines 74-76)

`re.sub(r"\s+", " ", text).strip()`: every maximal run of whitespace is
replaced by one space, then leading/trailing whitespace is removed. -/

/-- `re.sub(r"\s+", " ", text)`: each maximal whitespace run becomes `' '`
(a whitespace character followed by more whitespace is dropped; the last
character of the run is replaced by `' '`). -/
def collapseWS : List Char → List Char
  | [] => []
  | [c] => if isSpaceCh c then [' '] else [c]
  | c :: c' :: cs =>
    if isSpaceCh c then
      if isSpaceCh c' then collapseWS (c' :: cs)
      else ' ' :: collapseWS (c' :: cs)
    else c :: collapseWS (c' :: cs)

/-- `str.strip()`: drop whitespace from both ends. -/
def stripWS (cs : List Char) : List Char :=
  ((cs.dropWhile isSpaceCh).reverse.dropWhile isSpaceCh).reverse

/-- `_clean_text(text)`: `re.sub(r"\s+", " ", text).strip()`. -/
def clean_text (cs : List Char) : List Char :=
  stripWS (collapseWS cs)

/-! ### Version Recognizer — `VERSION_PATTERN` (line 35) and
`_extract_version` (lines 91-112)

`VERSION_PATTERN = re.compile(r"^(\d+(?:\.\d+){1,3})(?: BU)?$")`,
used as `VERSION_PATTERN.match(text)` on whitespace-normalized text.
The pattern is anchored at both ends (`re.match` anchors the start; the
pattern carries `^` and `$`; `$` would also accept one trailing
`"\n"`, but the matcher is only ever applied to normalized text, which
contains no newline).

The anchored pattern is deterministic: since a digit can never be one of
the characters `' '`, `'B'`, `'U'`, the alternative `(?: BU)?` succeeds
with the suffix exactly on texts ending in `" BU"` whose prefix matches
the core `\d+(?:\.\d+){1,3}`, i.e. whose prefix consists of 2 to 4
nonempty digit groups separated by single `'.'` characters; without the
suffix it succeeds exactly on texts that are themselves such a group
sequence.  `digitGroupsOK` decides the core by splitting on `'.'`. -/

/-- Whole-text match of the core `\d+(?:\.\d+){1,3}`:
2 to 4 nonempty all-digit groups separated by `'.'`. -/
def digitGroupsOK (cs : List Char) : Bool :=
  let gs := cs.splitOn '.'
  decide (2 ≤ gs.length) && decide (gs.length ≤ 4) &&
    gs.all (fun g => !g.isEmpty && g.all isDigitCh)

/-- Whole-text match of `VERSION_PATTERN` (see the discussion above). -/
def versionMatch (cs : List Char) : Bool :=
  match cs.reverse with
  | 'U' :: 'B' :: ' ' :: rest => digitGroupsOK cs || digitGroupsOK rest.reverse
  | _ => digitGroupsOK cs

/-- `_extract_version(text)` (lines 91-112): normalize, strip a
case-insensitive `"Patch "` prefix (`text.lower().startswith("patch ")`
then `text[6:].strip()`), return the remainder iff the pattern matches.
`Char.toLower` lowers exactly the ASCII range, like `str.lower()` does
on ASCII text. -/
def stripPatchPrefix (cs : List Char) : List Char :=
  if (cs.map Char.toLower).take 6 = "patch ".data then stripWS (cs.drop 6) else cs

def extract_version (text : List Char) : Option (List Char) :=
  let t := stripPatchPrefix (clean_text text)
  if versionMatch t then some t else none

/-! ### The spec's version grammar (section 4.2 of the spec)

"one or more groups of digits, separated by a literal delimiter, with
2 to 4 total groups, optionally followed by a single space and a fixed
two-letter uppercase suffix tag" — stated independently of the matcher,
as an existential over the group decomposition. -/

def SpecVersionGrammar (cs : List Char) : Prop :=
  ∃ gs : List (List Char),
    2 ≤ gs.length ∧ gs.length ≤ 4 ∧
    (∀ g ∈ gs, g ≠ [] ∧ ∀ c ∈ g, isDigitCh c = true) ∧
    (cs = List.intercalate ['.'] gs ∨
      cs = List.intercalate ['.'] gs ++ [' ', 'B', 'U'])

theorem digitGroupsOK_iff (cs : List Char) :
    digitGroupsOK cs = true ↔
      ∃ gs : List (List Char),
        2 ≤ gs.length ∧ gs.length ≤ 4 ∧
        (∀ g ∈ gs, g ≠ [] ∧ ∀ c ∈ g, isDigitCh c = true) ∧
        cs = List.intercalate ['.'] gs := by
  constructor
  · intro h
    refine ⟨cs.splitOn '.', ?_, ?_, ?_, ?_⟩
    · simp only [digitGroupsOK, Bool.and_eq_true, decide_eq_true_eq] at h
      exact h.1.1
    · simp only [digitGroupsOK, Bool.and_eq_true, decide_eq_true_eq] at h
      exact h.1.2
    · intro g hg
      simp only [digitGroupsOK, Bool.and_eq_true, decide_eq_true_eq,
        List.all_eq_true] at h
      have := h.2 g hg
      simp only [Bool.and_eq_true, Bool.not_eq_true', List.isEmpty_eq_false,
        List.all_eq_true] at this
      exact ⟨this.1, this.2⟩
    · exact (List.intercalate_splitOn cs '.').symm
  · rintro ⟨gs, h2, h4, hdig, rfl⟩
    have hsplit : (List.intercalate ['.'] gs).splitOn '.' = gs := by
      apply List.splitOn_intercalate
      · intro g hg hdot
        have := (hdig g hg).2 '.' hdot
        simp [isDigitCh] at this
      · intro h
        subst h
        simp at h2
    simp only [digitGroupsOK, hsplit, Bool.and_eq_true, decide_eq_true_eq,
      List.all_eq_true]
    refine ⟨⟨h2, h4⟩, ?_⟩
    intro g hg
    have := hdig g hg
    simp only [Bool.and_eq_true, Bool.not_eq_true', List.isEmpty_eq_false,
      List.all_eq_true]
    exact ⟨this.1, this.2⟩

theorem versionMatch_iff (cs : List Char) :
    versionMatch cs = true ↔ SpecVersionGrammar cs := by
  constructor
  · intro h
    unfold versionMatch at h
    split at h
    case h_1 rest heq =>
      rcases Bool.or_eq_true _ _ |>.mp h with hc | hr
      · obtain ⟨gs, h2, h4, hd, he⟩ := (digitGroupsOK_iff cs).mp hc
        exact ⟨gs, h2, h4, hd, Or.inl he⟩
      · obtain ⟨gs, h2, h4, hd, he⟩ := (digitGroupsOK_iff rest.reverse).mp hr
        refine ⟨gs, h2, h4, hd, Or.inr ?_⟩
        have : cs = rest.reverse ++ [' ', 'B', 'U'] := by
          have := congrArg List.reverse heq
          simpa using this
        rw [this, he]
    case h_2 =>
      obtain ⟨gs, h2, h4, hd, he⟩ := (digitGroupsOK_iff cs).mp h
      exact ⟨gs, h2, h4, hd, Or.inl he⟩
  · rintro ⟨gs, h2, h4, hd, he | he⟩
    · have hc : digitGroupsOK cs = true :=
        (digitGroupsOK_iff cs).mpr ⟨gs, h2, h4, hd, he⟩
      unfold versionMatch
      split
      · simp [hc]
      · exact hc
    · have hrev : cs.reverse =
          'U' :: 'B' :: ' ' :: (List.intercalate ['.'] gs).reverse := by
        rw [he]; simp
      have hc : digitGroupsOK (List.intercalate ['.'] gs) = true :=
        (digitGroupsOK_iff _).mpr ⟨gs, h2, h4, hd, rfl⟩
      unfold versionMatch
      split
      case h_1 rest heq =>
        rw [hrev] at heq
        have hr : rest = (List.intercalate ['.'] gs).reverse := by
          injection heq with _ h1
          injection h1 with _ h2'
          injection h2' with _ h3'
          exact h3'.symm
        rw [hr]
        simp [hc]
      case h_2 hne =>
        exact (hne _ hrev).elim

/-- C1: the Version Recognizer normalizes whitespace, strips a
case-insensitive `"Patch "` prefix, and returns the remainder unchanged
exactly when that whole remainder matches the grammar of 2 to 4 digit
groups separated by `"."`, optionally followed by a single space and the
suffix `"BU"`; any other text — in particular `"Patch 17"` — yields no
match. -/
theorem extract_version_iff_grammar :
    (∀ text v : List Char,
      extract_version text = some v ↔
        v = stripPatchPrefix (clean_text text) ∧ SpecVersionGrammar v) ∧
    extract_version "Patch 17".data = none := by
  constructor
  · intro text v
    unfold extract_version
    by_cases h : versionMatch (stripPatchPrefix (clean_text text)) = true
    · rw [if_pos h]
      constructor
      · intro hv
        injection hv with hv
        exact ⟨hv.symm, (versionMatch_iff _).mp (hv ▸ h)⟩
      · rintro ⟨rfl, _⟩
        rfl
    · rw [if_neg h]
      constructor
      · intro hv
        exact absurd hv (by simp)
      · rintro ⟨rfl, hg⟩
        exact absurd ((versionMatch_iff _).mpr hg) h
  · decide

/-! ### Dates — `datetime.date` and `_parse_date_maybe` (lines 79-88)

`datetime.date` is modelled as a record of three naturals ordered
lexicographically (as Python compares dates).  The scraper never builds
dates itself — they come from the external `dateutil` parser — so the
type imposes no calendar validation; `date.min` is `0001-01-01`. -/

structure Date where
  year : Nat
  month : Nat
  day : Nat
deriving DecidableEq, Repr

def dateMin : Date := ⟨1, 1, 1⟩

/-- The outcome of one call to the external `dateutil.parser.parse`
(with `fuzzy=True`) composed with `.date()`: the library call may raise,
return `None`, or produce a date.  `dateutil` is not part of the
repository, so every function that calls it takes the parse behaviour as
a parameter. -/
inductive ParseOutcome where
  | raises
  | noResult
  | parsed (d : Date)
deriving DecidableEq, Repr

abbrev DateParseFn := List Char → ParseOutcome

/-- The placeholder set `{"-", "n/a", "na", "unknown"}` (line 82). -/
def placeholders : List (List Char) :=
  ["-".data, "n/a".data, "na".data, "unknown".data]

/-- `_parse_date_maybe(text)` (lines 79-88): normalize, return `None` for
empty or placeholder text (`text.lower() in {...}`), otherwise call the
external parser, turning a `None` result or any raised exception into
`None`. -/
def parse_date_maybe (dateparse : DateParseFn) (text : List Char) : Option Date :=
  let t := clean_text text
  if t.isEmpty || t.map Char.toLower ∈ placeholders then none
  else
    match dateparse t with
    | .raises => none        -- `except Exception: return None`
    | .noResult => none      -- `return parsed.date() if parsed else None`
    | .parsed d => some d

/-- C4: the Date Interpreter returns "no date" on empty or placeholder
text, on a parser result of `None`, and on a raised parser exception;
being a total function into `Option Date`, it never propagates an
exception to its caller. -/
theorem parse_date_maybe_absorbs_failures :
    ∀ (dp : DateParseFn) (text : List Char),
      ((clean_text text = [] ∨
          (clean_text text).map Char.toLower ∈ placeholders) →
        parse_date_maybe dp text = none) ∧
      (dp (clean_text text) = .raises → parse_date_maybe dp text = none) ∧
      (dp (clean_text text) = .noResult → parse_date_maybe dp text = none) := by
  intro dp text
  refine ⟨?_, ?_, ?_⟩
  · intro h
    unfold parse_date_maybe
    rw [if_pos]
    rcases h with h | h
    · simp [h]
    · simp [h]
  · intro h
    unfold parse_date_maybe
    dsimp only
    split
    · rfl
    · rw [h]
  · intro h
    unfold parse_date_maybe
    dsimp only
    split
    · rfl
    · rw [h]

/-- Witness for C4 at concrete inputs: a placeholder (`"N/A"`), and a
parser that raises on the non-placeholder text `"May 1"`. -/
theorem parse_date_maybe_absorbs_failures_witness :
    parse_date_maybe (fun _ => ParseOutcome.parsed ⟨2020, 1, 1⟩) "N/A".data = none ∧
    parse_date_maybe (fun _ => ParseOutcome.raises) "May 1".data = none :=
  ⟨(parse_date_maybe_absorbs_failures _ _).1 (Or.inr (by decide)),
   (parse_date_maybe_absorbs_failures _ _).2.1 rfl⟩

/-! ### ISO rendering — `date.isoformat()` — and the spec-modelled date
parser

`write_csv` (line 186) renders a present date with `isoformat()`, i.e.
`f"{year:04d}-{month:02d}-{day:02d}"`: decimal fields, left-padded with
zeros. -/

def digitChar (d : Nat) : Char :=
  match d with
  | 0 => '0' | 1 => '1' | 2 => '2' | 3 => '3' | 4 => '4'
  | 5 => '5' | 6 => '6' | 7 => '7' | 8 => '8' | _ => '9'

def digitVal (c : Char) : Nat := c.toNat - 48

/-- Decimal digits of `n`, most significant first, by repeated division;
the first argument is fuel (`n` itself suffices).  `natCharsAux f 0 = []`;
the fields `isoformat` renders are all at least 1 and are padded anyway. -/
def natCharsAux : Nat → Nat → List Char
  | _, 0 => []
  | 0, _ + 1 => []
  | f + 1, n + 1 => natCharsAux f ((n + 1) / 10) ++ [digitChar ((n + 1) % 10)]

def natChars (n : Nat) : List Char := natCharsAux n n

/-- Left zero-padding to width `w`. -/
def padZeros (w : Nat) (cs : List Char) : List Char :=
  List.replicate (w - cs.length) '0' ++ cs

/-- `d.isoformat()`: `f"{year:04d}-{month:02d}-{day:02d}"`. -/
def isoformat (d : Date) : List Char :=
  List.intercalate ['-']
    [padZeros 4 (natChars d.year), padZeros 2 (natChars d.month),
      padZeros 2 (natChars d.day)]

/-- `int(text)` on an all-digit string. -/
def parseNat (cs : List Char) : Nat :=
  cs.foldl (fun a c => 10 * a + digitVal c) 0

/-- Modelled from the spec: the external date parser (`dateutil.parser`)
is not part of this repository; spec section 4.3 requires it to accept
"at minimum: ISO form (year-month-day)".  This model accepts exactly that
form — three dash-separated digit groups whose values satisfy the ranges
`datetime.date` enforces (day bound approximated by 31) — and raises on
everything else. -/
def isoDateParse : DateParseFn := fun cs =>
  match cs.splitOn '-' with
  | [y, m, d] =>
    if (!y.isEmpty && y.all isDigitCh) && (!m.isEmpty && m.all isDigitCh)
        && (!d.isEmpty && d.all isDigitCh) then
      if 1 ≤ parseNat y ∧ parseNat y ≤ 9999 ∧ 1 ≤ parseNat m ∧
          parseNat m ≤ 12 ∧ 1 ≤ parseNat d ∧ parseNat d ≤ 31 then
        .parsed ⟨parseNat y, parseNat m, parseNat d⟩
      else .raises
    else .raises
  | _ => .raises

theorem digitVal_digitChar {d : Nat} (h : d < 10) : digitVal (digitChar d) = d := by
  interval_cases d <;> rfl

theorem isDigitCh_digitChar (d : Nat) : isDigitCh (digitChar d) = true := by
  unfold digitChar
  split <;> decide

theorem parseNat_append_single (cs : List Char) (c : Char) :
    parseNat (cs ++ [c]) = 10 * parseNat cs + digitVal c := by
  simp [parseNat, List.foldl_append]

theorem parseNat_natCharsAux : ∀ f n, n ≤ f → parseNat (natCharsAux f n) = n := by
  intro f
  induction f with
  | zero =>
    intro n hn
    interval_cases n
    rfl
  | succ f ih =>
    intro n hn
    match n with
    | 0 => rfl
    | n + 1 =>
      have hdiv : (n + 1) / 10 ≤ f := by
        have := Nat.div_lt_self (Nat.succ_pos n) (by norm_num : 1 < 10)
        omega
      show parseNat (natCharsAux f ((n + 1) / 10) ++ [digitChar ((n + 1) % 10)]) = n + 1
      rw [parseNat_append_single, ih _ hdiv,
        digitVal_digitChar (Nat.mod_lt _ (by norm_num))]
      exact Nat.div_add_mod (n + 1) 10

theorem parseNat_natChars (n : Nat) : parseNat (natChars n) = n :=
  parseNat_natCharsAux n n (Nat.le_refl n)

theorem isDigitCh_mem_natCharsAux :
    ∀ f n c, c ∈ natCharsAux f n → isDigitCh c = true := by
  intro f
  induction f with
  | zero =>
    intro n c hc
    match n with
    | 0 => simp [natCharsAux] at hc
    | _ + 1 => simp [natCharsAux] at hc
  | succ f ih =>
    intro n c hc
    match n with
    | 0 => simp [natCharsAux] at hc
    | n + 1 =>
      rw [show natCharsAux (f + 1) (n + 1) =
        natCharsAux f ((n + 1) / 10) ++ [digitChar ((n + 1) % 10)] from rfl] at hc
      rcases List.mem_append.mp hc with h | h
      · exact ih _ _ h
      · rw [List.mem_singleton.mp h]
        exact isDigitCh_digitChar _

theorem parseNat_padZeros (w : Nat) (cs : List Char) :
    parseNat (padZeros w cs) = parseNat cs := by
  unfold padZeros parseNat
  rw [List.foldl_append]
  congr 1
  generalize w - cs.length = k
  induction k with
  | zero => rfl
  | succ k ih =>
    have h0 : 10 * 0 + digitVal '0' = 0 := by decide
    rw [List.replicate_succ, List.foldl_cons, h0]
    exact ih

theorem isDigitCh_mem_padZeros {w : Nat} {cs : List Char} {c : Char}
    (hcs : ∀ x ∈ cs, isDigitCh x = true) (h : c ∈ padZeros w cs) :
    isDigitCh c = true := by
  rcases List.mem_append.mp h with h | h
  · rw [List.eq_of_mem_replicate h]
    decide
  · exact hcs c h

theorem length_padZeros_ge (w : Nat) (cs : List Char) :
    w ≤ (padZeros w cs).length := by
  unfold padZeros
  rw [List.length_append, List.length_replicate]
  omega

theorem not_space_of_digit {c : Char} (h : isDigitCh c = true) :
    isSpaceCh c = false := by
  by_contra hs
  rw [Bool.not_eq_false] at hs
  simp only [isSpaceCh, Bool.or_eq_true, decide_eq_true_eq] at hs
  rcases hs with ((((rfl | rfl) | rfl) | rfl) | rfl) | rfl <;> revert h <;> decide

theorem collapseWS_of_no_space {cs : List Char}
    (h : ∀ c ∈ cs, isSpaceCh c = false) : collapseWS cs = cs := by
  induction cs with
  | nil => rfl
  | cons c cs ih =>
    cases cs with
    | nil => simp [collapseWS, h c (by simp)]
    | cons c' cs' =>
      have hc := h c (by simp)
      simp only [collapseWS, hc, Bool.false_eq_true, if_false, List.cons.injEq,
        true_and]
      exact ih (fun x hx => h x (List.mem_cons_of_mem _ hx))

theorem dropWhile_of_no_space {cs : List Char}
    (h : ∀ c ∈ cs, isSpaceCh c = false) : cs.dropWhile isSpaceCh = cs := by
  cases cs with
  | nil => rfl
  | cons c cs =>
    apply List.dropWhile_cons_of_neg
    simp [h c (by simp)]

theorem stripWS_of_no_space {cs : List Char}
    (h : ∀ c ∈ cs, isSpaceCh c = false) : stripWS cs = cs := by
  unfold stripWS
  rw [dropWhile_of_no_space h,
    dropWhile_of_no_space (fun c hc => h c (List.mem_reverse.mp hc)),
    List.reverse_reverse]

theorem clean_text_of_no_space {cs : List Char}
    (h : ∀ c ∈ cs, isSpaceCh c = false) : clean_text cs = cs := by
  unfold clean_text
  rw [collapseWS_of_no_space h, stripWS_of_no_space h]

theorem intercalate_three (s : Char) (a b c : List Char) :
    List.intercalate [s] [a, b, c] = a ++ s :: (b ++ s :: c) := by
  simp [List.intercalate]

theorem mem_isoformat {d : Date} {c : Char} (h : c ∈ isoformat d) :
    c = '-' ∨ isDigitCh c = true := by
  unfold isoformat at h
  rw [intercalate_three] at h
  simp only [List.mem_append, List.mem_cons] at h
  rcases h with h | h | h | h | h
  · exact Or.inr (isDigitCh_mem_padZeros (fun x hx => isDigitCh_mem_natCharsAux _ _ _ hx) h)
  · exact Or.inl h
  · exact Or.inr (isDigitCh_mem_padZeros (fun x hx => isDigitCh_mem_natCharsAux _ _ _ hx) h)
  · exact Or.inl h
  · exact Or.inr (isDigitCh_mem_padZeros (fun x hx => isDigitCh_mem_natCharsAux _ _ _ hx) h)

theorem isoformat_no_space (d : Date) :
    ∀ c ∈ isoformat d, isSpaceCh c = false := by
  intro c hc
  rcases mem_isoformat hc with rfl | h
  · decide
  · exact not_space_of_digit h

theorem length_isoformat_ge (d : Date) : 10 ≤ (isoformat d).length := by
  unfold isoformat
  rw [intercalate_three]
  simp only [List.length_append, List.length_cons]
  have h1 := length_padZeros_ge 4 (natChars d.year)
  have h2 := length_padZeros_ge 2 (natChars d.month)
  have h3 := length_padZeros_ge 2 (natChars d.day)
  omega

/-- C9: serializing a present date with `isoformat` and feeding the text
back through the Date Interpreter recovers the identical calendar date.
The hypotheses are the field ranges `datetime.date` guarantees for every
date the pipeline can hold. -/
theorem iso_roundtrip :
    ∀ d : Date,
      1 ≤ d.year → d.year ≤ 9999 → 1 ≤ d.month → d.month ≤ 12 →
      1 ≤ d.day → d.day ≤ 31 →
      parse_date_maybe isoDateParse (isoformat d) = some d := by
  intro d hy1 hy2 hm1 hm2 hd1 hd2
  have hclean : clean_text (isoformat d) = isoformat d :=
    clean_text_of_no_space (isoformat_no_space d)
  have hlen := length_isoformat_ge d
  unfold parse_date_maybe
  dsimp only
  rw [hclean, if_neg ?hcond]
  case hcond =>
    simp only [Bool.or_eq_true, decide_eq_true_eq, not_or]
    constructor
    · intro he
      rw [List.isEmpty_iff] at he
      rw [he] at hlen
      simp at hlen
    · intro hmem
      have hl : (List.map Char.toLower (isoformat d)).length = (isoformat d).length :=
        List.length_map _ _
      simp only [placeholders, List.mem_cons, List.not_mem_nil, or_false] at hmem
      rcases hmem with h | h | h | h <;>
        (rw [h] at hl; simp at hl; omega)
  suffices h : isoDateParse (isoformat d) = .parsed d by rw [h]
  have hsplit : (isoformat d).splitOn '-' =
      [padZeros 4 (natChars d.year), padZeros 2 (natChars d.month),
        padZeros 2 (natChars d.day)] := by
    unfold isoformat
    apply List.splitOn_intercalate
    · intro g hg hdash
      have hdig : isDigitCh '-' = true := by
        simp only [List.mem_cons, List.not_mem_nil, or_false] at hg
        rcases hg with rfl | rfl | rfl <;>
          exact isDigitCh_mem_padZeros
            (fun x hx => isDigitCh_mem_natCharsAux _ _ _ hx) hdash
      exact absurd hdig (by decide)
    · simp
  unfold isoDateParse
  rw [hsplit]
  dsimp only
  rw [if_pos ?hdigits, if_pos ?hranges]
  case hdigits =>
    have hne : ∀ w cs, w = 2 ∨ w = 4 → (padZeros w cs).isEmpty = false := by
      intro w cs hw
      have := length_padZeros_ge w cs
      rcases hw with rfl | rfl <;>
        (rw [List.isEmpty_eq_false]; intro he; rw [he] at this; simp at this)
    have hall : ∀ w (n : Nat), (padZeros w (natChars n)).all isDigitCh = true := by
      intro w n
      rw [List.all_eq_true]
      intro c hc
      exact isDigitCh_mem_padZeros
        (fun x hx => isDigitCh_mem_natCharsAux _ _ _ hx) hc
    simp [hne _ _ (Or.inl rfl), hne _ _ (Or.inr rfl), hall]
  case hranges =>
    rw [parseNat_padZeros, parseNat_padZeros, parseNat_padZeros,
      parseNat_natChars, parseNat_natChars, parseNat_natChars]
    exact ⟨hy1, hy2, hm1, hm2, hd1, hd2⟩
  rw [parseNat_padZeros, parseNat_padZeros, parseNat_padZeros,
    parseNat_natChars, parseNat_natChars, parseNat_natChars]

/-- Witness for C9 at the concrete date 2022-01-15. -/
theorem iso_roundtrip_witness :
    parse_date_maybe isoDateParse (isoformat ⟨2022, 1, 15⟩) = some ⟨2022, 1, 15⟩ :=
  iso_roundtrip ⟨2022, 1, 15⟩ (by decide) (by decide) (by decide) (by decide)
    (by decide) (by decide)

/-! ### Row Extractor — `extract_rows_from_table` (lines 115-159)

A table row's cells are `tr.find_all(["td", "th"])`: an ordered list of
cells, each a `<td>` or `<th>` carrying the text `cell.get_text(" ")`
yields.  A table is its list of rows (`table.find_all("tr")`). -/

inductive CellTag where
  | td
  | th
deriving DecidableEq, Repr

structure Cell where
  tag : CellTag
  text : List Char
deriving DecidableEq, Repr

abbrev Row := List Cell

abbrev Table := List Row

/-- The `PatchRow` dataclass (lines 38-42). -/
structure PatchRow where
  patch_id : List Char
  build : Option (List Char)
  release_date_na : Option Date
deriving DecidableEq, Repr

/-- The body of the `for tr in table.find_all("tr")` loop (lines 125-157),
producing the at most one `PatchRow` a row contributes.  Python's
`if not version: continue` is falsy both for `None` and for `""`. -/
def extract_row (dp : DateParseFn) (cells : Row) : Option PatchRow :=
  match cells with
  | [] => none                                -- `if not cells: continue`
  | c0 :: rest =>
    if c0.tag = CellTag.th then none          -- `if cells[0].name == "th": continue`
    else
      match extract_version (clean_text c0.text) with
      | none => none                          -- `if not version: continue`
      | some version =>
        if version.isEmpty then none
        else
          some {
            patch_id := version,
            build :=
              match rest with                 -- `if len(cells) > 2:`
              | _ :: c2 :: _ =>
                let bt := clean_text c2.text
                if bt ≠ [] ∧ bt ≠ ['-'] then some bt else none
              | _ => none,
            release_date_na :=
              match rest with                 -- `if len(cells) > 1:`
              | c1 :: _ => parse_date_maybe dp (clean_text c1.text)
              | [] => none }

/-- `extract_rows_from_table(table)`: the rows list accumulated by the
loop — one optional record per `<tr>`, in order. -/
def extract_rows_from_table (dp : DateParseFn) (t : Table) : List PatchRow :=
  t.filterMap (extract_row dp)

/-! ### Table Aggregator — `extract_all_rows` (lines 162-169)

The parsed document is a tree of elements; `soup.find_all("table",
class_="wikitable")` collects, in document order (preorder), every table
element whose class list contains `"wikitable"`. -/

inductive Node where
  | table (classes : List (List Char)) (rows : List Row)
  | elem (classes : List (List Char)) (children : List Node)

mutual

/-- `soup.find_all("table", class_="wikitable")` on the document tree. -/
def findWikitables : Node → List Table
  | .table classes rows =>
    if "wikitable".data ∈ classes then [rows] else []
  | .elem _ children => findWikitablesList children

def findWikitablesList : List Node → List Table
  | [] => []
  | n :: ns => findWikitables n ++ findWikitablesList ns

end

/-- `extract_all_rows(soup)`: `all_rows = []` then
`all_rows.extend(extract_rows_from_table(table))` per matching table. -/
def extract_all_rows (dp : DateParseFn) (doc : Node) : List PatchRow :=
  (findWikitables doc).foldl (fun acc t => acc ++ extract_rows_from_table dp t) []

/-! ### The zero-rows check in `main` (lines 196-199). -/

def zeroRowsMessage : List Char :=
  "Extracted 0 patch rows. Liquipedia table format may have changed.".data

/-- `main`'s guard on the extraction result: `if not rows: raise
RuntimeError(...)`; otherwise the rows flow on to `write_csv`. -/
def checkRows (rows : List PatchRow) : Except (List Char) (List PatchRow) :=
  if rows.isEmpty then .error zeroRowsMessage else .ok rows

/-! ### Serializer — `write_csv` (lines 172-187)

`sorted(rows, key=lambda r: (r.release_date_na or date.min, r.patch_id))`:
Python's stable sort on the tuple key — dates compare lexicographically
by (year, month, day) (a `date` object is always truthy, so `or date.min`
substitutes exactly for `None`), strings lexicographically by code point.
`List.mergeSort` with the corresponding total preorder is stable, so it
produces the same list as Python's sort. -/

def dateKey (r : PatchRow) : Date := r.release_date_na.getD dateMin

/-- The sort key as a lexicographic product; `≤` on this type is exactly
Python's tuple comparison. -/
def sortKey (r : PatchRow) : (Nat ×ₗ Nat ×ₗ Nat) ×ₗ List Char :=
  toLex (toLex ((dateKey r).year, toLex ((dateKey r).month, (dateKey r).day)),
    r.patch_id)

def rowLe (a b : PatchRow) : Bool := decide (sortKey a ≤ sortKey b)

/-- One CSV record: `[row.patch_id, row.build or "",
row.release_date_na.isoformat() if row.release_date_na else ""]`.
(`row.build or ""` returns `""` both for `None` and for an empty string,
and an empty string equals `""`, so `Option.getD` is exact.) -/
def csvFields (r : PatchRow) : List (List Char) :=
  [r.patch_id, r.build.getD [], (r.release_date_na.map isoformat).getD []]

/-- `write_csv`: the header row, then one record per row in sorted
order. -/
def write_csv (rows : List PatchRow) : List (List (List Char)) :=
  let sorted_rows := rows.mergeSort rowLe
  ["patch_id".data, "build".data, "release_date_na".data]
    :: sorted_rows.map csvFields

theorem rowLe_total (a b : PatchRow) : rowLe a b || rowLe b a := by
  simp only [rowLe, Bool.or_eq_true, decide_eq_true_eq]
  exact le_total _ _

theorem rowLe_trans (a b c : PatchRow) :
    rowLe a b → rowLe b c → rowLe a c := by
  simp only [rowLe, decide_eq_true_eq]
  exact le_trans

/-- C5: the Serializer writes records sorted ascending by the key
(release_date with absent replaced by `date.min`, identifier as plain
text): the output is the header plus a sorted permutation of the input
records; the key order is spelled out arithmetically; `"10.0.0.1"` sorts
strictly before `"4.1.3"`; the spec's three-date example comes out in
ascending date order. -/
theorem write_csv_sorts :
    (∀ rows : List PatchRow,
      write_csv rows =
        ["patch_id".data, "build".data, "release_date_na".data]
          :: (rows.mergeSort rowLe).map csvFields ∧
      (rows.mergeSort rowLe).Pairwise (fun a b => rowLe a b = true) ∧
      (rows.mergeSort rowLe).Perm rows) ∧
    (∀ a b : PatchRow, rowLe a b = true ↔
      ((dateKey a).year < (dateKey b).year ∨
        ((dateKey a).year = (dateKey b).year ∧
          ((dateKey a).month < (dateKey b).month ∨
            ((dateKey a).month = (dateKey b).month ∧
              ((dateKey a).day < (dateKey b).day ∨
                ((dateKey a).day = (dateKey b).day ∧
                  a.patch_id ≤ b.patch_id))))))) ∧
    (rowLe ⟨"10.0.0.1".data, none, none⟩ ⟨"4.1.3".data, none, none⟩ = true ∧
      rowLe ⟨"4.1.3".data, none, none⟩ ⟨"10.0.0.1".data, none, none⟩ = false) ∧
    ((([⟨"5.0.12".data, none, some ⟨2022, 1, 20⟩⟩,
        ⟨"5.0.10".data, none, some ⟨2022, 1, 5⟩⟩,
        ⟨"5.0.11".data, none, some ⟨2022, 1, 15⟩⟩] : List PatchRow).mergeSort
          rowLe).map PatchRow.patch_id =
      ["5.0.10".data, "5.0.11".data, "5.0.12".data]) := by
  refine ⟨?_, ?_, ⟨by decide, by decide⟩, ?_⟩
  · intro rows
    refine ⟨rfl, ?_, List.mergeSort_perm rows rowLe⟩
    have h := List.sorted_mergeSort
      (fun a b c => rowLe_trans a b c) (fun a b => rowLe_total a b) rows
    exact h
  · intro a b
    simp only [rowLe, decide_eq_true_eq, sortKey, Prod.Lex.le_iff,
      Prod.Lex.lt_iff, toLex_inj, Prod.mk.injEq]
    tauto
  · have h1 : rowLe ⟨"5.0.12".data, none, some ⟨2022, 1, 20⟩⟩
        ⟨"5.0.10".data, none, some ⟨2022, 1, 5⟩⟩ = false := by decide
    have h2 : rowLe ⟨"5.0.10".data, none, some ⟨2022, 1, 5⟩⟩
        ⟨"5.0.11".data, none, some ⟨2022, 1, 15⟩⟩ = true := by decide
    have h3 : rowLe ⟨"5.0.12".data, none, some ⟨2022, 1, 20⟩⟩
        ⟨"5.0.11".data, none, some ⟨2022, 1, 15⟩⟩ = false := by decide
    have h4 : rowLe ⟨"5.0.10".data, none, some ⟨2022, 1, 5⟩⟩
        ⟨"5.0.12".data, none, some ⟨2022, 1, 20⟩⟩ = true := by decide
    have h5 : rowLe ⟨"5.0.11".data, none, some ⟨2022, 1, 15⟩⟩
        ⟨"5.0.12".data, none, some ⟨2022, 1, 20⟩⟩ = true := by decide
    simp [List.mergeSort, List.splitInTwo, List.splitAt_eq, List.merge,
      h1, h2, h3, h4, h5]

/-- Shared computation lemma: a row whose first cell is not a header and
whose first cell's text yields a version produces exactly the record the
code builds from the second and third cells. -/
theorem extract_row_of_version {dp : DateParseFn} {c0 : Cell} {rest : List Cell}
    {v : List Char} (h0 : ¬ c0.tag = CellTag.th)
    (hv : extract_version (clean_text c0.text) = some v) :
    extract_row dp (c0 :: rest) = some {
      patch_id := v,
      build :=
        match rest with
        | _ :: c2 :: _ =>
          if clean_text c2.text ≠ [] ∧ clean_text c2.text ≠ ['-'] then
            some (clean_text c2.text)
          else none
        | _ => none,
      release_date_na :=
        match rest with
        | c1 :: _ => parse_date_maybe dp (clean_text c1.text)
        | [] => none } := by
  have hvm : versionMatch v = true := by
    unfold extract_version at hv
    dsimp only at hv
    split at hv
    · injection hv with hv
      subst hv
      assumption
    · exact absurd hv (by simp)
  have hne : v.isEmpty = false := by
    rw [List.isEmpty_eq_false]
    intro he
    subst he
    exact absurd hvm (by decide)
  unfold extract_row
  dsimp only
  rw [if_neg h0, hv]
  dsimp only
  rw [hne]
  rfl

theorem extract_row_none_of_no_version {dp : DateParseFn} {c0 : Cell}
    {rest : List Cell} (hv : extract_version (clean_text c0.text) = none) :
    extract_row dp (c0 :: rest) = none := by
  unfold extract_row
  dsimp only
  split
  · rfl
  · rw [hv]

/-- C2: a row whose first cell is a data cell with a recognized version
yields exactly one Record: identifier the version, release_date the Date
Interpreter on the second cell's normalized text (absent without a
second cell), build the third cell's normalized text when non-empty and
not "-" (absent otherwise); cells beyond the third never affect the
Record. -/
theorem extract_row_data_row :
    (∀ (dp : DateParseFn) (c0 : Cell) (rest : List Cell) (v : List Char),
      c0.tag = CellTag.td →
      extract_version (clean_text c0.text) = some v →
      extract_row dp (c0 :: rest) = some {
        patch_id := v,
        build :=
          match rest with
          | _ :: c2 :: _ =>
            if clean_text c2.text ≠ [] ∧ clean_text c2.text ≠ ['-'] then
              some (clean_text c2.text)
            else none
          | _ => none,
        release_date_na :=
          match rest with
          | c1 :: _ => parse_date_maybe dp (clean_text c1.text)
          | [] => none }) ∧
    (∀ (dp : DateParseFn) (c0 : Cell) (rest : List Cell),
      extract_row dp (c0 :: rest) = extract_row dp (c0 :: rest.take 2)) := by
  constructor
  · intro dp c0 rest v h0 hv
    exact extract_row_of_version (by rw [h0]; intro h; cases h) hv
  · intro dp c0 rest
    rcases rest with _ | ⟨c1, _ | ⟨c2, rr⟩⟩ <;> rfl

/-- Witness for C2 on a concrete four-cell data row (the fourth cell is
ignored). -/
theorem extract_row_data_row_witness :
    extract_row isoDateParse
      [⟨.td, "Patch 4.1.3".data⟩, ⟨.td, "2018-01-09".data⟩,
        ⟨.td, "61021".data⟩, ⟨.td, "Bug Fixes".data⟩] =
      some ⟨"4.1.3".data, some "61021".data, some ⟨2018, 1, 9⟩⟩ := by
  have h := extract_row_data_row.1 isoDateParse ⟨.td, "Patch 4.1.3".data⟩
    [⟨.td, "2018-01-09".data⟩, ⟨.td, "61021".data⟩, ⟨.td, "Bug Fixes".data⟩]
    "4.1.3".data rfl (by decide)
  rw [h]
  decide

/-- C3: rows with zero cells and rows whose first cell is a header cell
are skipped wherever they occur in the table, contributing no Record. -/
theorem skipped_rows :
    ∀ (dp : DateParseFn) (t1 t2 : Table) (row : Row),
      (row = [] ∨ ∃ c cs, row = c :: cs ∧ c.tag = CellTag.th) →
      extract_rows_from_table dp (t1 ++ row :: t2) =
        extract_rows_from_table dp (t1 ++ t2) := by
  intro dp t1 t2 row hrow
  have hnone : extract_row dp row = none := by
    rcases hrow with rfl | ⟨c, cs, rfl, hc⟩
    · rfl
    · unfold extract_row
      dsimp only
      rw [if_pos hc]
  simp [extract_rows_from_table, List.filterMap_append, List.filterMap_cons, hnone]

/-- Witness for C3: a realistic header row between two data rows
contributes nothing. -/
theorem skipped_rows_witness :
    extract_rows_from_table isoDateParse
      [[⟨.td, "Patch 4.1.3".data⟩],
        [⟨.th, "Notes".data⟩, ⟨.th, "Release date (NA)".data⟩],
        [⟨.td, "Patch 4.1.2".data⟩]] =
      extract_rows_from_table isoDateParse
        [[⟨.td, "Patch 4.1.3".data⟩], [⟨.td, "Patch 4.1.2".data⟩]] :=
  skipped_rows isoDateParse [[⟨.td, "Patch 4.1.3".data⟩]]
    [[⟨.td, "Patch 4.1.2".data⟩]]
    [⟨.th, "Notes".data⟩, ⟨.th, "Release date (NA)".data⟩]
    (Or.inr ⟨_, _, rfl, rfl⟩)

/-- C10: a header-kind cell after the first does not cause a skip: only
the first cell's kind is examined, and header-kind second/third cells
still supply the date and build columns; in general the extraction of a
row depends on the later cells only through their texts. -/
theorem later_header_cells_used :
    (∀ (dp : DateParseFn) (c0 c1 c2 : Cell) (rest : List Cell) (v : List Char),
      c0.tag = CellTag.td → c1.tag = CellTag.th → c2.tag = CellTag.th →
      extract_version (clean_text c0.text) = some v →
      extract_row dp (c0 :: c1 :: c2 :: rest) = some {
        patch_id := v,
        build :=
          if clean_text c2.text ≠ [] ∧ clean_text c2.text ≠ ['-'] then
            some (clean_text c2.text)
          else none,
        release_date_na := parse_date_maybe dp (clean_text c1.text) }) ∧
    (∀ (dp : DateParseFn) (c0 : Cell) (cells cells' : List Cell),
      cells.map Cell.text = cells'.map Cell.text →
      extract_row dp (c0 :: cells) = extract_row dp (c0 :: cells')) := by
  constructor
  · intro dp c0 c1 c2 rest v h0 _ _ hv
    exact extract_row_of_version (by rw [h0]; intro h; cases h) hv
  · intro dp c0 cells cells' htext
    rcases cells with _ | ⟨d1, _ | ⟨d2, dr⟩⟩ <;>
      rcases cells' with _ | ⟨e1, _ | ⟨e2, er⟩⟩
    · rfl
    · exfalso
      have h := congrArg List.length htext
      simp only [List.length_map, List.length_cons, List.length_nil] at h
      omega
    · exfalso
      have h := congrArg List.length htext
      simp only [List.length_map, List.length_cons, List.length_nil] at h
      omega
    · exfalso
      have h := congrArg List.length htext
      simp only [List.length_map, List.length_cons, List.length_nil] at h
      omega
    · have h1 : d1.text = e1.text := by simpa using htext
      unfold extract_row
      dsimp only
      rw [h1]
    · exfalso
      have h := congrArg List.length htext
      simp only [List.length_map, List.length_cons, List.length_nil] at h
      omega
    · exfalso
      have h := congrArg List.length htext
      simp only [List.length_map, List.length_cons, List.length_nil] at h
      omega
    · exfalso
      have h := congrArg List.length htext
      simp only [List.length_map, List.length_cons, List.length_nil] at h
      omega
    · obtain ⟨h1, h2, -⟩ :
          d1.text = e1.text ∧ d2.text = e2.text ∧
            dr.map Cell.text = er.map Cell.text := by simpa using htext
      unfold extract_row
      dsimp only
      rw [h1, h2]

/-- Witness for C10: header-kind date and build cells are used as data. -/
theorem later_header_cells_used_witness :
    extract_row isoDateParse
      [⟨.td, "Patch 4.1.3".data⟩, ⟨.th, "2018-01-09".data⟩,
        ⟨.th, "61021".data⟩] =
      some ⟨"4.1.3".data, some "61021".data, some ⟨2018, 1, 9⟩⟩ := by
  have h := later_header_cells_used.1 isoDateParse ⟨.td, "Patch 4.1.3".data⟩
    ⟨.th, "2018-01-09".data⟩ ⟨.th, "61021".data⟩ [] "4.1.3".data rfl rfl rfl
    (by decide)
  rw [h]
  decide

/-- Shared: the accumulator loop of `extract_all_rows` concatenates the
per-table results in order. -/
theorem foldl_append_extract (dp : DateParseFn) :
    ∀ (ts : List Table) (acc : List PatchRow),
      ts.foldl (fun a t => a ++ extract_rows_from_table dp t) acc =
        acc ++ ts.flatMap (extract_rows_from_table dp) := by
  intro ts
  induction ts with
  | nil => intro acc; simp
  | cons t ts ih =>
    intro acc
    rw [List.foldl_cons, ih, List.flatMap_cons, List.append_assoc]

theorem extract_all_rows_eq_flatMap (dp : DateParseFn) (doc : Node) :
    extract_all_rows dp doc =
      (findWikitables doc).flatMap (extract_rows_from_table dp) := by
  unfold extract_all_rows
  rw [foldl_append_extract, List.nil_append]

theorem findWikitablesList_append :
    ∀ l1 l2 : List Node,
      findWikitablesList (l1 ++ l2) =
        findWikitablesList l1 ++ findWikitablesList l2 := by
  intro l1
  induction l1 with
  | nil => intro l2; rfl
  | cons n ns ih =>
    intro l2
    rw [List.cons_append, findWikitablesList, findWikitablesList, ih,
      List.append_assoc]

/-- C6: the Table Aggregator extracts exactly from the tables carrying
the `"wikitable"` class, in document order, concatenating the per-table
records; non-marker tables contribute nothing, and a document with no
marker table yields `[]` rather than an error. -/
theorem aggregator_spec :
    (∀ (dp : DateParseFn) (doc : Node),
      extract_all_rows dp doc =
        (findWikitables doc).flatMap (extract_rows_from_table dp)) ∧
    (∀ (dp : DateParseFn) (doc : Node),
      findWikitables doc = [] → extract_all_rows dp doc = []) ∧
    (∀ (dp : DateParseFn) (classes : List (List Char)) (pre post : List Node)
        (ncls : List (List Char)) (nrows : List Row),
      "wikitable".data ∉ ncls →
      extract_all_rows dp (.elem classes (pre ++ .table ncls nrows :: post)) =
        extract_all_rows dp (.elem classes (pre ++ post))) := by
  refine ⟨extract_all_rows_eq_flatMap, ?_, ?_⟩
  · intro dp doc h
    rw [extract_all_rows_eq_flatMap, h]
    rfl
  · intro dp classes pre post ncls nrows hn
    rw [extract_all_rows_eq_flatMap, extract_all_rows_eq_flatMap]
    have h1 : findWikitables (.elem classes (pre ++ .table ncls nrows :: post)) =
        findWikitablesList pre ++ findWikitablesList post := by
      rw [findWikitables, findWikitablesList_append, findWikitablesList,
        findWikitables, if_neg hn]
      rfl
    have h2 : findWikitables (.elem classes (pre ++ post)) =
        findWikitablesList pre ++ findWikitablesList post := by
      rw [findWikitables, findWikitablesList_append]
    rw [h1, h2]

/-- Witness for C6: an empty document and a non-marker table both
contribute nothing. -/
theorem aggregator_spec_witness :
    extract_all_rows isoDateParse (.elem [] []) = [] ∧
    extract_all_rows isoDateParse
      (.elem [] [.table ["navbox".data] [[⟨.td, "Patch 4.1.3".data⟩]]]) =
      extract_all_rows isoDateParse (.elem [] []) :=
  ⟨aggregator_spec.2.1 isoDateParse (.elem [] []) rfl,
    aggregator_spec.2.2 isoDateParse [] [] [] ["navbox".data]
      [[⟨.td, "Patch 4.1.3".data⟩]] (by decide)⟩

/-- C7: whenever extraction produces zero Records — in particular when
the document has zero marker tables — `main`'s guard raises an explicit
error instead of completing with empty output. -/
theorem zero_rows_error :
    ∀ (dp : DateParseFn) (doc : Node),
      (extract_all_rows dp doc = [] →
        checkRows (extract_all_rows dp doc) = .error zeroRowsMessage) ∧
      (findWikitables doc = [] →
        checkRows (extract_all_rows dp doc) = .error zeroRowsMessage) := by
  intro dp doc
  constructor
  · intro h
    rw [h]
    rfl
  · intro h
    rw [extract_all_rows_eq_flatMap, h]
    rfl

/-- Witness for C7 on a document with no marker tables. -/
theorem zero_rows_error_witness :
    checkRows (extract_all_rows isoDateParse
        (.elem [] [.table ["navbox".data] []])) =
      .error zeroRowsMessage :=
  (zero_rows_error isoDateParse (.elem [] [.table ["navbox".data] []])).2
    (by decide)

/-- Shared: a successful row extraction carries a version that matched
the pattern. -/
theorem versionMatch_of_extract_row {dp : DateParseFn} {cells : Row}
    {r : PatchRow} (h : extract_row dp cells = some r) :
    versionMatch r.patch_id = true := by
  match cells with
  | [] => exact absurd h (by simp [extract_row])
  | c0 :: rest =>
    unfold extract_row at h
    dsimp only at h
    split at h
    · exact absurd h (by simp)
    · revert h
      split
      · intro h
        exact absurd h (by simp)
      case h_2 version heq =>
        intro h
        split at h
        · exact absurd h (by simp)
        · injection h with h
          subst h
          unfold extract_version at heq
          dsimp only at heq
          split at heq
          · injection heq with heq
            subst heq
            assumption
          · exact absurd heq (by simp)

/-- C8: every Record the pipeline produces has an identifier in the
version grammar (hence non-empty); a row whose first cell fails version
recognition produces no Record at all. -/
theorem record_identifier_invariant :
    (∀ (dp : DateParseFn) (doc : Node) (r : PatchRow),
      r ∈ extract_all_rows dp doc →
        SpecVersionGrammar r.patch_id ∧ r.patch_id ≠ []) ∧
    (∀ (dp : DateParseFn) (c0 : Cell) (rest : List Cell),
      extract_version (clean_text c0.text) = none →
      extract_row dp (c0 :: rest) = none) := by
  constructor
  · intro dp doc r hr
    rw [extract_all_rows_eq_flatMap] at hr
    obtain ⟨t, _, hrt⟩ := List.mem_flatMap.mp hr
    obtain ⟨cells, _, hrow⟩ := List.mem_filterMap.mp hrt
    have hvm := versionMatch_of_extract_row hrow
    refine ⟨(versionMatch_iff _).mp hvm, ?_⟩
    intro he
    rw [he] at hvm
    exact absurd hvm (by decide)
  · intro dp c0 rest hv
    exact extract_row_none_of_no_version hv

/-- Witness for C8: the record extracted from a one-table document has a
grammatical identifier, and a row with an unrecognizable first cell
yields no record. -/
theorem record_identifier_invariant_witness :
    (SpecVersionGrammar "4.1.3".data ∧ "4.1.3".data ≠ []) ∧
    extract_row isoDateParse
      [⟨.td, "Bug Fixes".data⟩, ⟨.td, "2018-01-09".data⟩] = none :=
  ⟨record_identifier_invariant.1 isoDateParse
      (.elem [] [.table ["wikitable".data] [[⟨.td, "Patch 4.1.3".data⟩]]])
      ⟨"4.1.3".data, none, none⟩ (by decide),
    record_identifier_invariant.2 isoDateParse ⟨.td, "Bug Fixes".data⟩
      [⟨.td, "2018-01-09".data⟩] (by decide)⟩

/-- Witness for C1: a concrete suffixed version recognized through the
grammar, with explicit group decomposition. -/
theorem extract_version_iff_grammar_witness :
    extract_version "Patch 4.0.2 BU".data = some "4.0.2 BU".data :=
  (extract_version_iff_grammar.1 "Patch 4.0.2 BU".data "4.0.2 BU".data).mpr
    ⟨by decide,
      ⟨["4".data, "0".data, "2".data], by decide, by decide, by decide,
        Or.inr (by decide)⟩⟩

/-- Witness for C5: the key comparison at concrete records with
distinct dates. -/
theorem write_csv_sorts_witness :
    rowLe ⟨"b".data, none, some ⟨2020, 1, 1⟩⟩
      ⟨"a".data, none, some ⟨2020, 1, 2⟩⟩ = true :=
  (write_csv_sorts.2.1 ⟨"b".data, none, some ⟨2020, 1, 1⟩⟩
    ⟨"a".data, none, some ⟨2020, 1, 2⟩⟩).mpr (by decide)

end Scrape
